import Mathlib

/-!
Verification of the scan-chain protocol engine of the `chip_test_ec`
repository.  The definitions below are shallow embeddings of the Python
source: the bitstream codec and double-shift protocol of
`backend/scan/core.py`, the registry construction and `update_scan`
procedure of `backend/fpga/base.py`, the BER estimation helpers of
`math/serdes.py`, the eye-diagram search of `backend/serdes/eye.py`, and
the `BinaryIterator` of `util/search.py`.
-/

namespace ChipTestEc

/-! ## Bitstream codec (`Scan.to_byte_array` / `Scan._from_byte_array`, backend/scan/core.py) -/

/-- One step of `int(bstr, 2)`: binary digits are consumed left to right,
accumulating `2 * acc + digit`. -/
def bitStep (acc : Nat) (b : Bool) : Nat := 2 * acc + (if b then 1 else 0)

/-- `int(bstr, 2)`: the value of a bit string, most significant bit first. -/
def ofBits (l : List Bool) : Nat := l.foldl bitStep 0

/-- `np.binary_repr(v, w)`: the `w`-character zero-padded binary
representation of `v`, most significant bit first.  Faithful for
`v < 2 ^ w`; for larger values `binary_repr` widens the string instead of
truncating, a case the library never produces (encode renders registry
values at their declared widths, decode renders transport bytes at width 8). -/
def toBits : Nat → Nat → List Bool
  | 0, _ => []
  | w + 1, v => toBits w (v / 2) ++ [v % 2 == 1]

/-- Structural-recursion helper for `chunk8`: the first argument only bounds
the number of groups produced and is always called with at least the list's
length, where it does not affect the result. -/
def chunk8F : Nat → List Bool → List (List Bool)
  | _, [] => []
  | 0, _ :: _ => []
  | fuel + 1, b :: l => ((b :: l).take 8) :: chunk8F fuel ((b :: l).drop 8)

/-- The byte-grouping loop `[bstr[i:i+8] for i in range(0, len(bstr), 8)]`:
consecutive groups of 8 bits, the final group shorter when the total bit
count is not a multiple of 8. -/
def chunk8 (l : List Bool) : List (List Bool) := chunk8F l.length l

/-- The bit string assembled by `Scan.to_byte_array`: each scan bus value
rendered at its declared width, MSB bus first, all concatenated. -/
def encodeBits (widths values : List Nat) : List Bool :=
  (List.zipWith toBits widths values).flatten

/-- `Scan.to_byte_array`: assemble the chain's bit string and pack it into
integers of (at most) 8 bits each. -/
def toByteArray (widths values : List Nat) : List Nat :=
  (chunk8 (encodeBits widths values)).map ofBits

/-- The bus-extraction loop of `Scan._from_byte_array`: the bus at
cumulative start index `idx` with width `n` reads `int(bstr[idx:idx+n], 2)`.
Consuming the widths front to back is the same slicing expressed
recursively. -/
def decodeFields : List Nat → List Bool → List Nat
  | [], _ => []
  | w :: ws, bits => ofBits (bits.take w) :: decodeFields ws (bits.drop w)

/-- `Scan._from_byte_array`: reject a byte array whose length differs from
`self._nbytes = ceil(total_bits / 8)` (raising an exception), otherwise
rebuild the bit string at 8 bits per byte and re-slice it into bus values. -/
def fromByteArray (widths : List Nat) (barr : List Nat) : Except String (List Nat) :=
  if barr.length ≠ (widths.sum + 7) / 8 then
    .error "bytearray length mismatch"
  else
    .ok (decodeFields widths ((barr.map (toBits 8)).flatten))

theorem toBits_length (w v : Nat) : (toBits w v).length = w := by
  induction w generalizing v with
  | zero => rfl
  | succ w ih => simp [toBits, ih]

theorem mod_pow_two_succ (v w : Nat) : v % 2 ^ (w + 1) = 2 * (v / 2 % 2 ^ w) + v % 2 := by
  have hx : 0 < 2 ^ w := Nat.pos_pow_of_pos w (by norm_num)
  have hqx : v / 2 % 2 ^ w < 2 ^ w := Nat.mod_lt _ hx
  have hr : v % 2 < 2 := Nat.mod_lt _ (by norm_num)
  conv_lhs => rw [← Nat.div_add_mod v 2]
  rw [pow_succ, mul_comm (2 ^ w) 2, Nat.add_mod, Nat.mul_mod_mul_left]
  have h1 : v % 2 % (2 * 2 ^ w) = v % 2 := Nat.mod_eq_of_lt (by omega)
  rw [h1]
  exact Nat.mod_eq_of_lt (by omega)

theorem foldl_bitStep_toBits (w : Nat) : ∀ (v a : Nat),
    (toBits w v).foldl bitStep a = a * 2 ^ w + v % 2 ^ w := by
  induction w with
  | zero => intro v a; simp [toBits, Nat.mod_one]
  | succ w ih =>
    intro v a
    rw [toBits, List.foldl_append, ih]
    simp only [List.foldl_cons, List.foldl_nil, bitStep]
    have hbit : (if (v % 2 == 1) = true then 1 else 0) = v % 2 := by
      rcases Nat.mod_two_eq_zero_or_one v with h | h <;> simp [h]
    rw [hbit, mod_pow_two_succ]
    ring

theorem ofBits_toBits {w v : Nat} (h : v < 2 ^ w) : ofBits (toBits w v) = v := by
  rw [ofBits, foldl_bitStep_toBits, Nat.zero_mul, Nat.zero_add, Nat.mod_eq_of_lt h]

theorem foldl_bitStep_lt (l : List Bool) : ∀ a : Nat,
    l.foldl bitStep a < (a + 1) * 2 ^ l.length := by
  induction l with
  | nil => intro a; simp
  | cons b t ih =>
    intro a
    simp only [List.foldl_cons, List.length_cons, bitStep]
    calc t.foldl bitStep (2 * a + (if b then 1 else 0))
        < (2 * a + (if b then 1 else 0) + 1) * 2 ^ t.length := ih _
      _ ≤ (a + 1) * 2 ^ (t.length + 1) := by
          have hb : (if b then 1 else 0) ≤ 1 := by rcases b <;> simp
          have h2 : 2 * a + (if b then 1 else 0) + 1 ≤ 2 * (a + 1) := by omega
          calc (2 * a + (if b then 1 else 0) + 1) * 2 ^ t.length
              ≤ 2 * (a + 1) * 2 ^ t.length := Nat.mul_le_mul_right _ h2
            _ = (a + 1) * 2 ^ (t.length + 1) := by ring

theorem ofBits_lt (l : List Bool) : ofBits l < 2 ^ l.length := by
  have := foldl_bitStep_lt l 0
  simpa [ofBits] using this

theorem ofBits_append_singleton (l : List Bool) (b : Bool) :
    ofBits (l ++ [b]) = 2 * ofBits l + (if b then 1 else 0) := by
  simp [ofBits, List.foldl_append, bitStep]

theorem toBits_ofBits (l : List Bool) : toBits l.length (ofBits l) = l := by
  induction l using List.reverseRecOn with
  | nil => rfl
  | append_singleton t b ih =>
    rw [ofBits_append_singleton]
    have hlen : (t ++ [b]).length = t.length + 1 := by simp
    rw [hlen, toBits]
    have hdiv : (2 * ofBits t + (if b then 1 else 0)) / 2 = ofBits t := by
      cases b with
      | false => simp
      | true => simp; omega
    have hmod : ((2 * ofBits t + (if b then 1 else 0)) % 2 == 1) = b := by
      cases b with
      | false => simp [Nat.add_mul_mod_self_left]
      | true => simp [Nat.add_mul_mod_self_left]; omega
    rw [hdiv, hmod, ih]

theorem decodeFields_encodeBits (widths values : List Nat)
    (h : List.Forall₂ (fun w v => v < 2 ^ w) widths values) :
    ∀ rest : List Bool, decodeFields widths (encodeBits widths values ++ rest) = values := by
  induction h with
  | nil => intro rest; rfl
  | @cons w v ws vs hwv htail ih =>
    intro rest
    have hzip : encodeBits (w :: ws) (v :: vs) = toBits w v ++ encodeBits ws vs := by
      simp [encodeBits]
    rw [hzip, List.append_assoc, decodeFields]
    have htake : (toBits w v ++ (encodeBits ws vs ++ rest)).take w = toBits w v :=
      List.take_left' (toBits_length w v)
    have hdrop : (toBits w v ++ (encodeBits ws vs ++ rest)).drop w = encodeBits ws vs ++ rest :=
      List.drop_left' (toBits_length w v)
    rw [htake, hdrop, ofBits_toBits hwv, ih rest]

theorem chunk8F_length (fuel : Nat) : ∀ l : List Bool, l.length ≤ fuel →
    (chunk8F fuel l).length = (l.length + 7) / 8 := by
  induction fuel with
  | zero =>
    intro l hl
    cases l with
    | nil => rfl
    | cons b t => simp at hl
  | succ fuel ih =>
    intro l hl
    cases l with
    | nil => rfl
    | cons b t =>
      rw [chunk8F]
      have hd : ((b :: t).drop 8).length = t.length + 1 - 8 := by simp
      have hrec := ih ((b :: t).drop 8) (by simp at hl ⊢; omega)
      rw [hd] at hrec
      simp only [List.length_cons, hrec]
      omega

theorem chunk8_length (l : List Bool) : (chunk8 l).length = (l.length + 7) / 8 :=
  chunk8F_length l.length l le_rfl

theorem chunk8F_flatten_toBits (fuel : Nat) : ∀ l : List Bool, l.length ≤ fuel →
    l.length % 8 = 0 →
    ((chunk8F fuel l).map (fun c => toBits 8 (ofBits c))).flatten = l := by
  induction fuel with
  | zero =>
    intro l hl _
    cases l with
    | nil => rfl
    | cons b t => simp at hl
  | succ fuel ih =>
    intro l hl h
    cases l with
    | nil => rfl
    | cons b t =>
      rw [chunk8F]
      simp only [List.map_cons, List.flatten_cons]
      have hlc : (b :: t).length = t.length + 1 := by simp
      rw [hlc] at h hl
      have hlen : ((b :: t).take 8).length = 8 := by
        rw [List.length_take, hlc]
        omega
      have hrt := toBits_ofBits ((b :: t).take 8)
      rw [hlen] at hrt
      rw [hrt]
      have hfuel : ((b :: t).drop 8).length ≤ fuel := by
        rw [List.length_drop, hlc]
        omega
      have hmod : ((b :: t).drop 8).length % 8 = 0 := by
        rw [List.length_drop, hlc]
        omega
      rw [ih _ hfuel hmod, List.take_append_drop]

theorem chunk8_flatten_toBits (l : List Bool) (h : l.length % 8 = 0) :
    ((chunk8 l).map (fun c => toBits 8 (ofBits c))).flatten = l :=
  chunk8F_flatten_toBits l.length l le_rfl h

theorem encodeBits_length (widths : List Nat) : ∀ values : List Nat,
    widths.length = values.length →
    (encodeBits widths values).length = widths.sum := by
  induction widths with
  | nil => intro values _; rfl
  | cons w ws ih =>
    intro values hlen
    cases values with
    | nil => simp at hlen
    | cons v vs =>
      have : encodeBits (w :: ws) (v :: vs) = toBits w v ++ encodeBits ws vs := by
        simp [encodeBits]
      rw [this, List.length_append, toBits_length, List.sum_cons, ih vs (by simpa using hlen)]

/-- C3: for every chain whose total bit width is a multiple of 8 and every
assignment of in-range values to its fields, decoding
(`Scan._from_byte_array`) the byte array produced by encoding
(`Scan.to_byte_array`) those values yields exactly the original value for
every field of the chain. -/
theorem scan_codec_roundtrip (widths values : List Nat)
    (hval : List.Forall₂ (fun w v => v < 2 ^ w) widths values)
    (halign : widths.sum % 8 = 0) :
    fromByteArray widths (toByteArray widths values) = Except.ok values := by
  have hlen : widths.length = values.length := hval.length_eq
  have henc : (encodeBits widths values).length = widths.sum := encodeBits_length _ _ hlen
  rw [fromByteArray, toByteArray]
  rw [List.length_map, chunk8_length, henc, if_neg (by simp)]
  congr 1
  rw [List.map_map]
  have hcomp : (toBits 8 ∘ ofBits) = fun c => toBits 8 (ofBits c) := rfl
  rw [hcomp, chunk8_flatten_toBits _ (by rw [henc]; exact halign)]
  have := decodeFields_encodeBits widths values hval []
  simpa using this

/-- C3 witness: a concrete 16-bit chain with widths 3, 5, 8 and extreme
field values round-trips. -/
theorem scan_codec_roundtrip_witness :
    List.Forall₂ (fun w v => v < 2 ^ w) [3, 5, 8] [7, 0, 255] ∧
      ([3, 5, 8] : List Nat).sum % 8 = 0 ∧
      fromByteArray [3, 5, 8] (toByteArray [3, 5, 8] [7, 0, 255]) = Except.ok [7, 0, 255] :=
  ⟨by simp [List.forall₂_cons], by decide,
    scan_codec_roundtrip _ _ (by simp [List.forall₂_cons]) (by decide)⟩

/-! ## Scan update procedure (`FPGABase.update_scan` / `FPGABase.check_scan_success`, backend/fpga/base.py) -/

/-- The two exceptions `update_scan` can raise (both `ValueError` in the
source, distinguished by their messages): the output-length check at the top
of the procedure, and the readback-consistency check of
`check_scan_success`. -/
inductive ScanError where
  | lengthError
  | consistencyError
deriving DecidableEq

/-- Observable result of one `update_scan` call: the chain's registry values
when the call finishes (normally or by raising), the argument passed to each
callback invocation in order (the source runs `fun(chain_name)` once per
registered callback), and the exception raised, if any. -/
structure UpdateOutcome where
  values : List Nat
  notified : List String
  error : Option ScanError
deriving DecidableEq

/-- `FPGABase.check_scan_success`: walk `zip(name_list, in_list, out_list)`
and raise on the first scan bus that is not read-only and whose readback
differs from the value scanned in.  `true` when the walk raises. -/
def checkScanFails (readOnly : String → Bool) (names : List String)
    (ins outs : List Nat) : Bool :=
  (names.zip (ins.zip outs)).any fun p => !readOnly p.1 && decide (p.2.1 ≠ p.2.2)

/-- `FPGABase.update_scan`: read the chain's current values in bus order,
obtain `output` (the identity in fake-scan mode, `update_pins` for an IO-pin
chain, otherwise `scan_in_and_read_out`), raise if the output list length
differs from the input's, run `check_scan_success` when checking is
requested (by the caller or the global `check_scan` flag), then write
`output` back into the registry and call every registered callback with the
chain name.  `order` is the MSB-first bus-name list, `values` the registry
content for the chain (parallel to `order`), `callbacks` the number of
registered callback functions; the device responses `scan_in_and_read_out`
and `update_pins` are abstracted as functions of the scanned-in values.  A
raise leaves the registry as it stood at that point and skips all later
steps, which the outcome records. -/
def updateScan (fake isPin : Bool) (scanOut pinOut : List Nat → List Nat)
    (readOnly : String → Bool) (callbacks : Nat) (chainName : String)
    (order : List String) (values : List Nat)
    (check checkScanGlobal : Bool) : UpdateOutcome :=
  let chk := check || checkScanGlobal
  let value := values
  let output := if fake then value else if isPin then pinOut value else scanOut value
  if value.length ≠ output.length then
    ⟨values, [], some .lengthError⟩
  else if chk && checkScanFails readOnly order value output then
    ⟨values, [], some .consistencyError⟩
  else
    ⟨output, List.replicate callbacks chainName, none⟩

theorem checkScanFails_self (readOnly : String → Bool) :
    ∀ (names : List String) (vals : List Nat),
      checkScanFails readOnly names vals vals = false := by
  intro names
  induction names with
  | nil => intro vals; rfl
  | cons n ns ih =>
    intro vals
    cases vals with
    | nil => rfl
    | cons v vs =>
      have hv : (decide (v ≠ v) : Bool) = false := by simp
      simp only [checkScanFails, List.zip_cons_cons, List.any_cons, hv, Bool.and_false,
        Bool.false_or]
      exact ih vs

/-- C5: for every `update_scan` call in which the device's output value list
length differs from the input value list length, the length error is raised,
the registry is left exactly as it was, and no callback is invoked. -/
theorem updateScan_length_mismatch (isPin : Bool)
    (scanOut pinOut : List Nat → List Nat) (readOnly : String → Bool)
    (callbacks : Nat) (chainName : String) (order : List String)
    (values : List Nat) (check cg : Bool)
    (hlen : values.length ≠ (if isPin then pinOut values else scanOut values).length) :
    updateScan false isPin scanOut pinOut readOnly callbacks chainName order values check cg
      = ⟨values, [], some .lengthError⟩ := by
  cases isPin <;> simp_all [updateScan]

/-- C5 witness: a device returning two values for a one-bus chain aborts the
update with the registry untouched. -/
theorem updateScan_length_mismatch_witness :
    ([5] : List Nat).length ≠ ([1, 2] : List Nat).length ∧
      updateScan false false (fun _ => [1, 2]) (fun v => v) (fun _ => false) 3 "c" ["a"] [5]
          false false
        = ⟨[5], [], some .lengthError⟩ :=
  ⟨by decide,
    updateScan_length_mismatch false (fun _ => [1, 2]) (fun v => v) (fun _ => false) 3 "c"
      ["a"] [5] false false (by decide)⟩

/-- C6: in fake-scan mode `update_scan` leaves every field value of the
chain unchanged and invokes each registered callback exactly once with the
chain name, raising nothing, even when checking is requested. -/
theorem updateScan_fake (isPin : Bool) (scanOut pinOut : List Nat → List Nat)
    (readOnly : String → Bool) (callbacks : Nat) (chainName : String)
    (order : List String) (values : List Nat) (check cg : Bool) :
    updateScan true isPin scanOut pinOut readOnly callbacks chainName order values check cg
      = ⟨values, List.replicate callbacks chainName, none⟩ := by
  simp [updateScan, checkScanFails_self]

/-- C1 counterexample: one non-read-only bus is sent as 0 while the device
reads back 1, with `check = true` on a non-fake chain.  The consistency
error is raised and no callback runs, but the registry still holds the
originally sent 0, not the returned 1: the claim that the registry has
already been updated with the readback when the error is raised is false. -/
theorem updateScan_check_counterexample :
    (updateScan false false (fun _ => [1]) (fun v => v) (fun _ => false) 1 "c" ["a"] [0]
        true false)
      = ⟨[0], [], some .consistencyError⟩ ∧ ([0] : List Nat) ≠ [1] := by
  constructor
  · rfl
  · decide

/-- C1 (amended): for every `update_scan` call with `check = true` on a
non-fake, non-pin chain whose readback has the input's length but differs
from the sent values on at least one non-read-only bus, the consistency
error is raised, the registry at that point still holds the originally sent
values (the write-back step has not yet run), and no callback is invoked. -/
theorem updateScan_check_raises_before_commit
    (scanOut pinOut : List Nat → List Nat) (readOnly : String → Bool)
    (callbacks : Nat) (chainName : String) (order : List String)
    (values : List Nat) (cg : Bool)
    (hlen : (scanOut values).length = values.length)
    (hdiff : checkScanFails readOnly order values (scanOut values) = true) :
    updateScan false false scanOut pinOut readOnly callbacks chainName order values true cg
      = ⟨values, [], some .consistencyError⟩ := by
  simp [updateScan, hlen, hdiff]

/-- C1 witness: a concrete two-bus chain where the second, non-read-only bus
reads back differently. -/
theorem updateScan_check_raises_before_commit_witness :
    ((fun (_ : List Nat) => [3, 9]) [3, 4]).length = ([3, 4] : List Nat).length ∧
      checkScanFails (fun _ => false) ["a", "b"] [3, 4] ((fun _ => [3, 9]) [3, 4]) = true ∧
      updateScan false false (fun _ => [3, 9]) (fun v => v) (fun _ => false) 2 "c" ["a", "b"]
          [3, 4] true false
        = ⟨[3, 4], [], some .consistencyError⟩ :=
  ⟨by decide, by decide,
    updateScan_check_raises_before_commit (fun _ => [3, 9]) (fun v => v) (fun _ => false) 2
      "c" ["a", "b"] [3, 4] false (by decide) (by decide)⟩

/-! ## Registry construction (`FPGABase.__init__`, backend/fpga/base.py) -/

/-- One scan bus entry of a chain definition: `name`, `nbits`, and the
`value` attribute with the YAML default 0 already applied
(`bus_info.get('value', 0)`).  The constructor stores the value without any
range check, so it is kept as an arbitrary integer. -/
structure BusDef where
  name : String
  nbits : Nat
  value : Int
deriving DecidableEq

/-- One chain of the YAML scan-chain file: its address, its ordered bus
list, and whether the document explicitly defines the reserved per-chain
`nbits` attribute (`'nbits' in chain_info`). -/
structure ChainDef where
  addr : Int
  content : List BusDef
  hasNbitsAttr : Bool
deriving DecidableEq

/-- Assignment `d[k] = v` on a Python dict: an existing key keeps its
position and gets the new value, a new key is appended. -/
def dictInsert {α : Type} : List (String × α) → String → α → List (String × α)
  | [], k, v => [(k, v)]
  | (k', v') :: rest, k, v =>
    if k' = k then (k, v) :: rest else (k', v') :: dictInsert rest k v

/-- The per-chain registry state built by `FPGABase.__init__`: the value
dict, the MSB-first bus-name order, the per-bus width dict, and the computed
total bit count. -/
structure ChainState where
  value : List (String × Int)
  order : List String
  blen : List (String × Nat)
  nbits : Nat
deriving DecidableEq

/-- The body of the per-chain loop in `FPGABase.__init__`: accumulate value,
order, width and bit count over `content`, then reject a chain that
explicitly defines the reserved `nbits` attribute.  Duplicate bus names and
out-of-range default values pass through without any check. -/
def buildChain (info : ChainDef) : Except String ChainState :=
  let st := info.content.foldl
    (fun st bus =>
      { value := dictInsert st.value bus.name bus.value
        order := st.order ++ [bus.name]
        blen := dictInsert st.blen bus.name bus.nbits
        nbits := st.nbits + bus.nbits })
    ⟨[], [], [], 0⟩
  if info.hasNbitsAttr then .error "chain contains reserved attribute nbits."
  else .ok st

/-- Process the chains of the scan-chain file in document (dict insertion)
order; the first chain that defines the reserved attribute aborts the whole
construction. -/
def buildChains : List (String × ChainDef) → Except String (List (String × ChainState))
  | [] => .ok []
  | (name, info) :: rest =>
    match buildChain info with
    | .error e => .error e
    | .ok st =>
      match buildChains rest with
      | .error e => .error e
      | .ok tail => .ok ((name, st) :: tail)

/-- The registry `FPGABase.__init__` produces: per-chain state plus the
chain names sorted ascending by `(addr, name)` (Python's tuple sort of
`chain_sort`). -/
structure Registry where
  chains : List (String × ChainState)
  chainNames : List String
deriving DecidableEq

/-- `FPGABase.__init__` (scan-chain part): build every chain or abort with
the reserved-attribute error; on success no other validation runs. -/
def buildRegistry (chains : List (String × ChainDef)) : Except String Registry :=
  match buildChains chains with
  | .error e => .error e
  | .ok states =>
    let sorted := (chains.map (fun c => (c.2.addr, c.1))).mergeSort
      (fun a b => a.1 < b.1 || (a.1 = b.1 && a.2 ≤ b.2))
    .ok ⟨states, sorted.map Prod.snd⟩

theorem buildChains_isOk (chains : List (String × ChainDef)) :
    (buildChains chains).isOk = chains.all (fun c => !c.2.hasNbitsAttr) := by
  induction chains with
  | nil => rfl
  | cons c rest ih =>
    obtain ⟨name, info⟩ := c
    by_cases h : info.hasNbitsAttr
    · simp [buildChains, buildChain, h, Except.isOk, Except.toBool]
    · cases hrest : buildChains rest with
      | error e =>
        rw [hrest] at ih
        simp [buildChains, buildChain, h, hrest, Except.isOk, Except.toBool, ← ih]
      | ok tail =>
        rw [hrest] at ih
        simp [buildChains, buildChain, h, hrest, Except.isOk, Except.toBool, ← ih]

theorem buildRegistry_isOk (chains : List (String × ChainDef)) :
    (buildRegistry chains).isOk = (buildChains chains).isOk := by
  rw [buildRegistry]
  cases h : buildChains chains <;> simp [Except.isOk, Except.toBool]

/-- C7 counterexample: a document whose single chain repeats the bus name
`f` and gives it the default value 7, out of range for its declared width 2,
is accepted by the constructor without any error, so construction does not
fail on duplicate names or out-of-range defaults. -/
theorem buildRegistry_accepts_invalid :
    (buildRegistry [("c", ⟨0, [⟨"f", 2, 1⟩, ⟨"f", 2, 7⟩], false⟩)]).isOk = true ∧
      ¬ (([⟨"f", 2, 1⟩, ⟨"f", 2, 7⟩] : List BusDef).map BusDef.name).Nodup ∧
      ¬ ((7 : Int) < 2 ^ 2) :=
  ⟨rfl, by decide, by decide⟩

/-- C7 (amended): registry construction from a chain-definition document
fails if and only if some chain explicitly defines the reserved
total-bit-count attribute `nbits`; duplicate bus names within a chain and
out-of-range default values are not checked and never cause a failure, and
on failure no registry object is produced (the constructor raises). -/
theorem buildRegistry_fails_iff (chains : List (String × ChainDef)) :
    (buildRegistry chains).isOk = false ↔ ∃ c ∈ chains, c.2.hasNbitsAttr = true := by
  rw [buildRegistry_isOk, buildChains_isOk]
  simp

/-! ## Double-shift protocol (`Scan.write_twice`, backend/scan/core.py) -/

/-- One interaction with the FPGA transport: a `write_ints` call carrying
the bytes sent, or a `read_ints` call carrying the byte count requested. -/
inductive FpgaIo where
  | write (data : List Nat)
  | read (count : Nat)
deriving DecidableEq

/-- Observable result of one `write_twice` call on a `Scan` object with a
real FPGA: the transport interaction trace, the retained prefix/suffix byte
data, whether `_from_byte_array` raised, the registry values after the call,
and the number of callback invocations (`Scan` callbacks take no argument;
a raise skips them). -/
structure WriteTwiceOutcome where
  trace : List FpgaIo
  preData : List Nat
  postData : List Nat
  error : Bool
  values : List Nat
  callbacksRun : Nat
deriving DecidableEq

/-- `Scan.write_twice`, non-fake branch (`self._fpga is not None`): send
`[0x10] + to_byte_array()`, read `nbytes + pre + post` bytes and discard the
result, send the identical array again, read the same count (`read2`, the
authoritative readback), carve off the first `pre` bytes as `_pre_data` and
the last `post` bytes as `_post_data`, feed only the middle slice to
`_from_byte_array`, then run the callbacks.  The transport responses are the
parameters `read1`/`read2`; the slice arithmetic assumes
`pre + post ≤ read2.length`, which the transport's exact-count read contract
guarantees. -/
def writeTwice (pre post : Nat) (widths values : List Nat)
    (read1 read2 : List Nat) (callbacks : Nat) : WriteTwiceOutcome :=
  let barr := toByteArray widths values
  let arr := 0x10 :: barr
  let cnt := barr.length + pre + post
  let trace := [FpgaIo.write arr, FpgaIo.read cnt, FpgaIo.write arr, FpgaIo.read cnt]
  let scanOut := read2
  let newScan := (scanOut.drop pre).take (scanOut.length - post - pre)
  let preData := scanOut.take pre
  let postData := scanOut.drop (scanOut.length - post)
  match fromByteArray widths newScan with
  | .error _ => ⟨trace, preData, postData, true, values, 0⟩
  | .ok newVals => ⟨trace, preData, postData, false, newVals, callbacks⟩

/-- C2: for every non-fake scan update the transport sees exactly
write-payload / read / write-identical-payload / read with byte count
`len(payload bytes) + pre + post`; the first readback is discarded (the
outcome does not depend on it), the first `pre` bytes of the second readback
become the queryable prefix data, its last `post` bytes the queryable suffix
data, and only the middle slice is decoded into the new field values. -/
theorem writeTwice_protocol (pre post : Nat) (widths values read1 read1' read2 : List Nat)
    (callbacks : Nat) (hwv : widths.length = values.length)
    (hlen : read2.length = (toByteArray widths values).length + pre + post) :
    (writeTwice pre post widths values read1 read2 callbacks).trace
        = [FpgaIo.write (0x10 :: toByteArray widths values),
           FpgaIo.read ((toByteArray widths values).length + pre + post),
           FpgaIo.write (0x10 :: toByteArray widths values),
           FpgaIo.read ((toByteArray widths values).length + pre + post)] ∧
      writeTwice pre post widths values read1 read2 callbacks
        = writeTwice pre post widths values read1' read2 callbacks ∧
      (writeTwice pre post widths values read1 read2 callbacks).preData = read2.take pre ∧
      (writeTwice pre post widths values read1 read2 callbacks).postData
        = read2.drop (read2.length - post) ∧
      (writeTwice pre post widths values read1 read2 callbacks).error = false ∧
      (writeTwice pre post widths values read1 read2 callbacks).values
        = decodeFields widths
            ((((read2.drop pre).take ((toByteArray widths values).length)).map
              (toBits 8)).flatten) := by
  have hnb : (toByteArray widths values).length = (widths.sum + 7) / 8 := by
    rw [toByteArray, List.length_map, chunk8_length, encodeBits_length _ _ hwv]
  have hmid : read2.length - post - pre = (toByteArray widths values).length := by omega
  have hmidlen : ((read2.drop pre).take (read2.length - post - pre)).length
      = (toByteArray widths values).length := by
    rw [List.length_take, List.length_drop]
    omega
  have hdec : fromByteArray widths ((read2.drop pre).take (read2.length - post - pre))
      = Except.ok (decodeFields widths
          ((((read2.drop pre).take ((toByteArray widths values).length)).map
            (toBits 8)).flatten)) := by
    rw [fromByteArray, if_neg (by rw [hmidlen, hnb]; simp), hmid]
  refine ⟨?_, ?_, ?_, ?_, ?_, ?_⟩ <;> simp [writeTwice, hdec]

/-- C2 witness: a one-byte chain with one prefix and one suffix byte. -/
theorem writeTwice_protocol_witness :
    ([8] : List Nat).length = ([171] : List Nat).length ∧
      ([9, 5, 7] : List Nat).length = (toByteArray [8] [171]).length + 1 + 1 ∧
      (writeTwice 1 1 [8] [171] [0, 0, 0] [9, 5, 7] 2).preData = [9] ∧
      (writeTwice 1 1 [8] [171] [0, 0, 0] [9, 5, 7] 2).postData = [7] ∧
      (writeTwice 1 1 [8] [171] [0, 0, 0] [9, 5, 7] 2).values = [5] := by
  have h := writeTwice_protocol 1 1 [8] [171] [0, 0, 0] [1, 1, 1] [9, 5, 7] 2
    (by decide) (by decide)
  refine ⟨by decide, by decide, ?_, ?_, ?_⟩
  · rw [h.2.2.1]; decide
  · rw [h.2.2.2.1]; decide
  · rw [h.2.2.2.2.2]; decide

/-! ## BER estimation (`get_ber`, math/serdes.py) -/

/-- `get_ber(confidence, ntot, nerr)` exactly as written in the source:
`if nerr <= 10: return get_ber(confidence, ntot, nerr)` — a call to itself
with identical arguments — `else: return nerr / ntot`.  The extra `fuel`
argument bounds the number of recursive calls; because the self-call never
changes its arguments, the `nerr <= 10` branch exhausts any finite fuel,
which is the shallow rendering of the Python infinite recursion
(`RecursionError`). -/
def getBer (fuel : Nat) (confidence : ℚ) (ntot nerr : Nat) : Option ℚ :=
  match fuel with
  | 0 => none
  | fuel + 1 =>
    if nerr ≤ 10 then getBer fuel confidence ntot nerr
    else some ((nerr : ℚ) / (ntot : ℚ))

/-- C4: the claim (and the sibling code in `EyePlotBase.read_error`) expects
`get_ber` to return the precomputed table value for error counts in the
table's range (`nerr <= 10`) and the plain ratio outside it.  The code
instead recurses into itself with unchanged arguments for every in-range
count, so it never produces a value there no matter how much recursion depth
is granted — evaluated here at the failing input `nerr = 0` — while counts
outside the range do return `nerr / ntot`. -/
theorem getBer_diverges_in_table_range :
    (∀ fuel : Nat, getBer fuel (95 / 100) 1000000000 0 = none) ∧
      getBer 1 (95 / 100) 1000000000 11 = some ((11 : ℚ) / (1000000000 : ℚ)) := by
  constructor
  · intro fuel
    induction fuel with
    | zero => rfl
    | succ fuel ih => simpa [getBer] using ih
  · norm_num [getBer]

/-! ## Required-trials computation (`EyePlotBase.__init__`, backend/serdes/eye.py) -/

/-- `self.nbits_meas = int(math.ceil(-math.log(1.0 - confidence) / self.targ_ber))`.
The Python float arithmetic is modelled over the reals; at the values the
claims exercise the result is far from an integer boundary, so the float
and real computations agree. -/
noncomputable def nbitsMeas (confidence targBer : ℝ) : ℤ :=
  ⌈-Real.log (1 - confidence) / targBer⌉

theorem exp_pow_le_twenty_pow : (2.7182818286 : ℝ) ^ 2995 ≤ 20 ^ 1000 := by
  have hnat : (27182818286 : ℕ) ^ 2995 ≤ 20 ^ 1000 * 10 ^ 29950 := by
    set_option exponentiation.threshold 40000 in
    set_option maxRecDepth 100000 in
    decide
  have hreal : (27182818286 : ℝ) ^ 2995 ≤ 20 ^ 1000 * 10 ^ 29950 := by
    exact_mod_cast hnat
  have : (2.7182818286 : ℝ) = 27182818286 / 10 ^ 10 := by norm_num
  rw [this, div_pow, div_le_iff₀ (by positivity)]
  calc (27182818286 : ℝ) ^ 2995 ≤ 20 ^ 1000 * 10 ^ 29950 := hreal
    _ = 20 ^ 1000 * ((10 : ℝ) ^ 10) ^ 2995 := by norm_num

theorem twenty_pow_le_exp_pow : (20 : ℝ) ^ 1000 ≤ (2.7182818283 : ℝ) ^ 2996 := by
  have hnat : (20 : ℕ) ^ 1000 * 10 ^ 29960 ≤ 27182818283 ^ 2996 := by
    set_option exponentiation.threshold 40000 in
    set_option maxRecDepth 100000 in
    decide
  have hreal : (20 : ℝ) ^ 1000 * 10 ^ 29960 ≤ 27182818283 ^ 2996 := by
    exact_mod_cast hnat
  have he : (2.7182818283 : ℝ) = 27182818283 / 10 ^ 10 := by norm_num
  rw [he, div_pow, le_div_iff₀ (by positivity)]
  calc (20 : ℝ) ^ 1000 * ((10 : ℝ) ^ 10) ^ 2996 = 20 ^ 1000 * 10 ^ 29960 := by norm_num
    _ ≤ 27182818283 ^ 2996 := hreal

theorem log_twenty_lower : (2995 : ℝ) < 1000 * Real.log 20 := by
  have h1 : Real.exp 2995 = Real.exp 1 ^ (2995 : ℕ) := by
    rw [← Real.exp_nat_mul]
    norm_num
  have h2 : Real.exp 1 ^ (2995 : ℕ) < (2.7182818286 : ℝ) ^ 2995 :=
    pow_lt_pow_left₀ Real.exp_one_lt_d9 (Real.exp_pos 1).le (by norm_num)
  have h3 : Real.exp 2995 < (20 : ℝ) ^ 1000 := by
    rw [h1]
    exact lt_of_lt_of_le h2 exp_pow_le_twenty_pow
  have h4 : (2995 : ℝ) < Real.log ((20 : ℝ) ^ 1000) :=
    (Real.lt_log_iff_exp_lt (by positivity)).mpr h3
  rw [Real.log_pow] at h4
  exact_mod_cast h4

theorem log_twenty_upper : 1000 * Real.log 20 ≤ (2996 : ℝ) := by
  have h2 : (2.7182818283 : ℝ) ^ 2996 < Real.exp 1 ^ (2996 : ℕ) :=
    pow_lt_pow_left₀ Real.exp_one_gt_d9 (by norm_num) (by norm_num)
  have h3 : Real.exp 1 ^ (2996 : ℕ) = Real.exp 2996 := by
    rw [← Real.exp_nat_mul]
    norm_num
  have h4 : (20 : ℝ) ^ 1000 ≤ Real.exp 2996 := by
    rw [← h3]
    exact le_of_lt (lt_of_le_of_lt twenty_pow_le_exp_pow h2)
  have h5 : Real.log ((20 : ℝ) ^ 1000) ≤ 2996 :=
    (Real.log_le_iff_le_exp (by positivity)).mpr h4
  rw [Real.log_pow] at h5
  exact_mod_cast h5

/-- C9: the required-trials computation is
`ceil(-ln(1 - confidence) / target_ber)`, and at confidence 0.95 and target
BER 0.001 it is exactly the integer 2996. -/
theorem nbitsMeas_formula :
    (∀ confidence targBer : ℝ,
        nbitsMeas confidence targBer = ⌈-Real.log (1 - confidence) / targBer⌉) ∧
      nbitsMeas 0.95 0.001 = 2996 := by
  refine ⟨fun _ _ => rfl, ?_⟩
  rw [nbitsMeas]
  have h5 : (1 : ℝ) - 0.95 = 0.05 := by norm_num
  rw [h5]
  have hlog : -Real.log 0.05 = Real.log 20 := by
    rw [← Real.log_inv]
    norm_num
  rw [hlog]
  have hdiv : Real.log 20 / (0.001 : ℝ) = 1000 * Real.log 20 := by
    rw [div_eq_mul_inv, show ((0.001 : ℝ))⁻¹ = 1000 by norm_num, mul_comm]
  rw [hdiv]
  rw [Int.ceil_eq_iff]
  constructor
  · push_cast
    linarith [log_twenty_lower]
  · push_cast
    exact log_twenty_upper

/-! ## Binary search iterator (`BinaryIterator`, util/search.py) -/

/-- State of a bounded `BinaryIterator`.  The Python object keeps `_offset`
(the constructor's `low` argument), and the internal indices `_low`,
`_high`, `_current`.  For a bounded iterator built with the default
`step = 1` the internal indices start at `0`, `high - low` and the midpoint,
and `up`/`down` only ever add one or take the floor of a half of a sum, so
they stay nonnegative and are kept as naturals; Python's floor division
`//` on them is natural division. -/
structure BinIter where
  offset : Int
  low : Nat
  high : Nat
  current : Nat
deriving DecidableEq

/-- `BinaryIterator(low, high)` for integers `low < high` with the default
`step = 1`: `nmax = (high - low) // 1` and the `low + step * nmax < high`
correction does not fire, so the internal range is `[0, high - low)` with
the cursor at its midpoint. -/
def BinIter.mkBounded (lo hi : Int) : BinIter :=
  ⟨lo, 0, (hi - lo).toNat, (hi - lo).toNat / 2⟩

/-- `has_next()`: `_low < _high` for a bounded iterator. -/
def BinIter.hasNext (s : BinIter) : Bool := s.low < s.high

/-- `get_next()`: `_current * _step + _offset` with `step = 1`. -/
def BinIter.getNext (s : BinIter) : Int := s.offset + s.current

/-- `up()`: `_low = _current + 1; _current = (_low + _high) // 2`. -/
def BinIter.up (s : BinIter) : BinIter :=
  ⟨s.offset, s.current + 1, s.high, (s.current + 1 + s.high) / 2⟩

/-- `down()`: `_high = _current; _current = (_low + _high) // 2`. -/
def BinIter.down (s : BinIter) : BinIter :=
  ⟨s.offset, s.low, s.current, (s.low + s.current) / 2⟩

/-- A call to `up` or `down`. -/
inductive BinOp where
  | up
  | down
deriving DecidableEq

def BinIter.applyOp (s : BinIter) : BinOp → BinIter
  | .up => s.up
  | .down => s.down

def BinIter.applyOps (s : BinIter) : List BinOp → BinIter
  | [] => s
  | op :: ops => (s.applyOp op).applyOps ops

/-- Invariant of every reachable bounded-iterator state: while unfinished
the cursor lies in `[_low, _high)`; once finished the cursor is pinned next
to `_low`, which keeps `up` and `down` from ever reviving the iterator. -/
def BinIter.Inv (s : BinIter) : Prop :=
  (s.low < s.high → s.low ≤ s.current ∧ s.current < s.high) ∧
    (s.high ≤ s.low → s.current ≤ s.low ∧ s.high ≤ s.current + 1)

theorem BinIter.inv_applyOp {s : BinIter} (op : BinOp) (h : s.Inv) : (s.applyOp op).Inv := by
  cases op <;> simp only [Inv, applyOp, up, down] at h ⊢ <;> omega

theorem BinIter.applyOp_measure {s : BinIter} (op : BinOp) (h : s.Inv) :
    (s.applyOp op).high - (s.applyOp op).low < s.high - s.low ∨
      (s.applyOp op).high ≤ (s.applyOp op).low := by
  cases op <;> simp only [Inv, applyOp, up, down] at h ⊢ <;> omega

theorem BinIter.applyOp_high_le {s : BinIter} (op : BinOp) (h : s.Inv) :
    (s.applyOp op).low < (s.applyOp op).high → (s.applyOp op).high ≤ s.high := by
  cases op <;> simp only [Inv, applyOp, up, down] at h ⊢ <;> omega

theorem BinIter.applyOps_hasNext_false : ∀ (ops : List BinOp) (s : BinIter), s.Inv →
    s.high - s.low ≤ ops.length → (s.applyOps ops).hasNext = false := by
  intro ops
  induction ops with
  | nil =>
    intro s _ hm
    simp only [List.length_nil] at hm
    simp only [applyOps, hasNext, decide_eq_false_iff_not]
    omega
  | cons op ops ih =>
    intro s hinv hm
    rw [applyOps]
    refine ih _ (BinIter.inv_applyOp op hinv) ?_
    rcases BinIter.applyOp_measure op hinv with h | h
    · simp only [List.length_cons] at hm
      omega
    · omega

theorem BinIter.applyOps_inv : ∀ (ops : List BinOp) (s : BinIter), s.Inv →
    (s.applyOps ops).Inv ∧
      ((s.applyOps ops).low < (s.applyOps ops).high → (s.applyOps ops).high ≤ s.high) := by
  intro ops
  induction ops with
  | nil => intro s h; exact ⟨h, fun _ => le_rfl⟩
  | cons op ops ih =>
    intro s hinv
    rw [applyOps]
    obtain ⟨h1, h2⟩ := ih _ (BinIter.inv_applyOp op hinv)
    refine ⟨h1, fun hlt => ?_⟩
    have h3 := h2 hlt
    by_cases hmid : (s.applyOp op).low < (s.applyOp op).high
    · exact h3.trans (BinIter.applyOp_high_le op hinv hmid)
    · -- the iterator was already finished right after `op`; it stays finished
      have := BinIter.applyOps_hasNext_false ops (s.applyOp op)
        (BinIter.inv_applyOp op hinv) (by omega)
      simp only [hasNext, decide_eq_false_iff_not] at this
      omega

/-- C10: a bounded `BinaryIterator` built from integers `low < high` with
step 1 terminates — after at most `high - low` calls to `up`/`down` in any
order, `has_next()` is false — and as long as `has_next()` is true,
`get_next()` returns a value in the half-open interval `[low, high)`. -/
theorem binIter_bounded_correct (lo hi : Int) (h : lo < hi) (ops : List BinOp) :
    ((hi - lo).toNat ≤ ops.length →
        ((BinIter.mkBounded lo hi).applyOps ops).hasNext = false) ∧
      (((BinIter.mkBounded lo hi).applyOps ops).hasNext = true →
        lo ≤ ((BinIter.mkBounded lo hi).applyOps ops).getNext ∧
          ((BinIter.mkBounded lo hi).applyOps ops).getNext < hi) := by
  have hinv : (BinIter.mkBounded lo hi).Inv := by
    simp only [BinIter.Inv, BinIter.mkBounded]
    omega
  constructor
  · intro hlen
    exact BinIter.applyOps_hasNext_false ops _ hinv (by simp [BinIter.mkBounded]; omega)
  · intro hnext
    obtain ⟨hinv', hhigh⟩ := BinIter.applyOps_inv ops _ hinv
    simp only [BinIter.hasNext, decide_eq_true_eq] at hnext
    have h1 := hinv'.1 hnext
    have h2 := hhigh hnext
    simp only [BinIter.mkBounded] at h2
    have hoff : ((BinIter.mkBounded lo hi).applyOps ops).offset = lo := by
      have : ∀ (ops : List BinOp) (s : BinIter), (s.applyOps ops).offset = s.offset := by
        intro ops
        induction ops with
        | nil => intro s; rfl
        | cons op ops ih =>
          intro s
          rw [BinIter.applyOps, ih]
          cases op <;> rfl
      exact this ops _
    rw [BinIter.getNext, hoff]
    constructor
    · omega
    · have hcur : (((BinIter.mkBounded lo hi).applyOps ops).current : Int) < (hi - lo).toNat := by
        exact_mod_cast lt_of_lt_of_le h1.2 h2
      omega

/-- C10 witness: the iterator over `[0, 4)` is exhausted by four operations,
and one `up` from the start leaves it unfinished with its value inside
`[0, 4)`. -/
theorem binIter_bounded_correct_witness :
    (0 : Int) < 4 ∧
      ((BinIter.mkBounded 0 4).applyOps [.up, .down, .up, .up]).hasNext = false ∧
      (((BinIter.mkBounded 0 4).applyOps [.up]).hasNext = true →
        (0 : Int) ≤ ((BinIter.mkBounded 0 4).applyOps [.up]).getNext ∧
          ((BinIter.mkBounded 0 4).applyOps [.up]).getNext < 4) :=
  ⟨by decide,
    (binIter_bounded_correct 0 4 (by decide) [.up, .down, .up, .up]).1 (by decide),
    (binIter_bounded_correct 0 4 (by decide) [.up]).2⟩

/-! ## Eye search (`EyePlotBase.run` / `_bin_search_eye_edge` / `_flood_search_eye_edge`,
backend/serdes/eye.py) -/

/-- A message `thread.send` posts for one grid point of the current column:
the "measuring" marker `(0, -1, 0)` sent before an oracle call, a real
`read_error` result (characterized by its error count `val[1]`), the
maximum-error sentinel `self.max_err_val` (whose error count is
`nbits_meas > 0`), or the in-eye ideal value `self.ideal_val` (whose error
count is 0). -/
inductive EyeMsg where
  | measuring
  | result (errors : Nat)
  | maxErr
  | ideal
deriving DecidableEq

/-- Python's `range(a, b)` as a list of integers. -/
def intRange (a b : Int) : List Int :=
  (List.range (b - a).toNat).map (fun i : Nat => a + (i : Int))

/-- The `while bin_iter.has_next()` loop of `_bin_search_eye_edge`.  State
threaded through: the iterator, the running edge index, the mark set (as the
list of probed y indices), the messages sent so far, and the `read_error`
call count.  The first argument bounds the number of iterations; the loop
body always shrinks the iterator's internal range, so the range width at
entry suffices, and exhausted fuel returns exactly what the
`has_next() == False` exit returns. -/
def binSearchLoop (oracle : Int → Nat) (eyeOnTop : Bool) :
    Nat → BinIter → Int → List Int → List (Int × EyeMsg) → Nat →
    Int × List Int × List (Int × EyeMsg) × Nat
  | 0, _, edge, marks, msgs, calls => (edge, marks, msgs, calls)
  | fuel + 1, s, edge, marks, msgs, calls =>
    if s.hasNext then
      let cur := s.getNext
      let errs := oracle cur
      let msgs' := msgs ++ [(cur, EyeMsg.measuring), (cur, EyeMsg.result errs)]
      let marks' := marks ++ [cur]
      if errs = 0 then
        binSearchLoop oracle eyeOnTop fuel (if eyeOnTop then s.down else s.up) cur
          marks' msgs' (calls + 1)
      else
        binSearchLoop oracle eyeOnTop fuel (if eyeOnTop then s.up else s.down) edge
          marks' msgs' (calls + 1)
    else (edge, marks, msgs, calls)

/-- `EyePlotBase._bin_search_eye_edge(mark_set, t_idx, bot_idx, top_idx,
eye_on_top)`: run a `BinaryIterator(bot_idx, top_idx)`, remembering the last
zero-error index seen as the edge (initially `top_idx` when the eye is
above, `bot_idx - 1` when below), stepping toward the eye on a zero reading
and away from it otherwise. -/
def binSearchEyeEdge (oracle : Int → Nat) (botIdx topIdx : Int) (eyeOnTop : Bool)
    (marks : List Int) (msgs : List (Int × EyeMsg)) :
    Int × List Int × List (Int × EyeMsg) × Nat :=
  let s := BinIter.mkBounded botIdx topIdx
  binSearchLoop oracle eyeOnTop (s.high - s.low) s
    (if eyeOnTop then topIdx else botIdx - 1) marks msgs 0

/-- The `while` loop of `_flood_search_eye_edge`: alternately probe just
below `bot_idx` and just above `top_idx` (preferring the side the current
direction and the exhausted-side tests pick) until a zero-error point is
found — returned with the flag `cur_idx > top_idx` — or the whole
`[start_idx, stop_idx)` range is exhausted, returning `(-1, false)`.  Fuel
bounds the iterations; each pass grows the probed span by one, so the
remaining span at entry suffices. -/
def floodSearchLoop (oracle : Int → Nat) (startIdx stopIdx : Int) :
    Nat → Int → Int → Int → List Int → List (Int × EyeMsg) → Nat →
    (Int × Bool) × List Int × List (Int × EyeMsg) × Nat
  | 0, _, _, _, marks, msgs, calls => ((-1, false), marks, msgs, calls)
  | fuel + 1, curDir, botIdx, topIdx, marks, msgs, calls =>
    if botIdx > startIdx ∨ topIdx < stopIdx - 1 then
      let cur := if (curDir < 0 ∧ botIdx > startIdx) ∨ topIdx = stopIdx - 1
        then botIdx - 1 else topIdx + 1
      let errs := oracle cur
      let msgs' := msgs ++ [(cur, EyeMsg.measuring), (cur, EyeMsg.result errs)]
      let marks' := marks ++ [cur]
      if errs = 0 then ((cur, decide (cur > topIdx)), marks', msgs', calls + 1)
      else
        floodSearchLoop oracle startIdx stopIdx fuel (-curDir) (min botIdx cur)
          (max topIdx cur) marks' msgs' (calls + 1)
    else ((-1, false), marks, msgs, calls)

/-- `EyePlotBase._flood_search_eye_edge(mark_set, t_idx, start_idx,
stop_idx, bot_idx, top_idx)`, starting with direction `-1`. -/
def floodSearchEyeEdge (oracle : Int → Nat) (startIdx stopIdx botIdx topIdx : Int)
    (marks : List Int) (msgs : List (Int × EyeMsg)) :
    (Int × Bool) × List Int × List (Int × EyeMsg) × Nat :=
  floodSearchLoop oracle startIdx stopIdx
    ((botIdx - startIdx).toNat + (stopIdx - 1 - topIdx).toNat) (-1) botIdx topIdx
    marks msgs 0

/-- Result of one time-offset column of `EyePlotBase.run`: the messages sent
for the column (y index paired with the value), the discovered
`(bot_edge_idx, top_edge_idx)` pair — `none` models the `continue` taken
when the flood search exhausts the column — and the number of `read_error`
calls made. -/
structure ColumnOutcome where
  msgs : List (Int × EyeMsg)
  edges : Option (Int × Int)
  calls : Nat
deriving DecidableEq

/-- The body of `EyePlotBase.run` for one time offset, with the stop flag
never set and an oracle abstracting `read_error` by the error count it
produces at each y index: probe the guess; if it is error-free,
binary-search the bottom edge on `[0, guess)` and the top edge on
`(guess, num_y)`, sending the max-error sentinel for every unprobed index
outside the edges; otherwise flood-search for an edge from the guess and
binary-search the other side when one is found; finally send the ideal
value for every index strictly between the edges. -/
def runColumn (oracle : Int → Nat) (numY : Nat) (guessIdx : Int) : ColumnOutcome :=
  let errs := oracle guessIdx
  let marks0 : List Int := [guessIdx]
  let msgs1 : List (Int × EyeMsg) :=
    [(guessIdx, EyeMsg.measuring), (guessIdx, EyeMsg.result errs)]
  if errs = 0 then
    match binSearchEyeEdge oracle 0 guessIdx true marks0 msgs1 with
    | (botEdge, marks1, msgs2, calls1) =>
      let msgs3 := msgs2 ++
        ((intRange 0 botEdge).filter (fun i => decide (i ∉ marks1))).map
          (fun i => (i, EyeMsg.maxErr))
      match binSearchEyeEdge oracle (guessIdx + 1) (numY : Int) false marks1 msgs3 with
      | (topEdge, marks2, msgs4, calls2) =>
        let msgs5 := msgs4 ++
          ((intRange (topEdge + 1) (numY : Int)).filter (fun i => decide (i ∉ marks2))).map
            (fun i => (i, EyeMsg.maxErr))
        let msgs6 := msgs5 ++ (intRange (botEdge + 1) topEdge).map (fun i => (i, EyeMsg.ideal))
        ⟨msgs6, some (botEdge, topEdge), 1 + calls1 + calls2⟩
  else
    match floodSearchEyeEdge oracle 0 (numY : Int) guessIdx guessIdx marks0 msgs1 with
    | ((edgeIdx, isBotEdge), marks1, msgs2, calls1) =>
      if edgeIdx < 0 then ⟨msgs2, none, 1 + calls1⟩
      else if isBotEdge then
        let botEdge := edgeIdx
        let msgs3 := msgs2 ++
          ((intRange 0 botEdge).filter (fun i => decide (i ∉ marks1))).map
            (fun i => (i, EyeMsg.maxErr))
        match binSearchEyeEdge oracle (botEdge + 1) (numY : Int) false marks1 msgs3 with
        | (topEdge, marks2, msgs4, calls2) =>
          let msgs5 := msgs4 ++
            ((intRange (topEdge + 1) (numY : Int)).filter (fun i => decide (i ∉ marks2))).map
              (fun i => (i, EyeMsg.maxErr))
          let msgs6 := msgs5 ++
            (intRange (botEdge + 1) topEdge).map (fun i => (i, EyeMsg.ideal))
          ⟨msgs6, some (botEdge, topEdge), 1 + calls1 + calls2⟩
      else
        let topEdge := edgeIdx
        let msgs3 := msgs2 ++
          ((intRange (topEdge + 1) (numY : Int)).filter (fun i => decide (i ∉ marks1))).map
            (fun i => (i, EyeMsg.maxErr))
        match binSearchEyeEdge oracle 0 topEdge true marks1 msgs3 with
        | (botEdge, marks2, msgs4, calls2) =>
          let msgs5 := msgs4 ++
            ((intRange 0 botEdge).filter (fun i => decide (i ∉ marks2))).map
              (fun i => (i, EyeMsg.maxErr))
          let msgs6 := msgs5 ++
            (intRange (botEdge + 1) topEdge).map (fun i => (i, EyeMsg.ideal))
          ⟨msgs6, some (botEdge, topEdge), 1 + calls1 + calls2⟩

theorem mem_intRange {a b i : Int} : i ∈ intRange a b ↔ a ≤ i ∧ i < b := by
  simp only [intRange, List.mem_map, List.mem_range]
  constructor
  · rintro ⟨k, hk, rfl⟩
    omega
  · intro ⟨h1, h2⟩
    refine ⟨(i - a).toNat, by omega, by omega⟩

theorem binSearchLoop_zero_bottom : ∀ (fuel h : Nat), h ≤ fuel →
    ∀ (edge : Int) (marks : List Int) (msgs : List (Int × EyeMsg)) (calls : Nat),
    ∃ (edge' : Int) (marks' : List Int) (tail : List (Int × EyeMsg)) (calls' : Nat),
      binSearchLoop (fun _ => 0) true fuel ⟨0, 0, h, h / 2⟩ edge marks msgs calls
          = (edge', marks', msgs ++ tail, calls') ∧
        (h = 0 → edge' = edge ∧ tail = []) ∧
        (0 < h → edge' = 0 ∧ ((0 : Int), EyeMsg.result 0) ∈ tail) ∧
        (∀ m ∈ tail, m.2 = EyeMsg.measuring ∨ m.2 = EyeMsg.result 0) := by
  intro fuel
  induction fuel with
  | zero =>
    intro h hh edge marks msgs calls
    have h0 : h = 0 := by omega
    subst h0
    exact ⟨edge, marks, [], calls, by simp [binSearchLoop], fun _ => ⟨rfl, rfl⟩,
      by omega, by simp⟩
  | succ fuel ih =>
    intro h hh edge marks msgs calls
    by_cases h0 : h = 0
    · subst h0
      refine ⟨edge, marks, [], calls, ?_, fun _ => ⟨rfl, rfl⟩, by omega, by simp⟩
      simp [binSearchLoop, BinIter.hasNext]
    · have hpos : 0 < h := Nat.pos_of_ne_zero h0
      have hstep : binSearchLoop (fun _ => 0) true (fuel + 1) ⟨0, 0, h, h / 2⟩ edge marks
          msgs calls
          = binSearchLoop (fun _ => 0) true fuel ⟨0, 0, h / 2, h / 2 / 2⟩
            ((h / 2 : Nat) : Int)
            (marks ++ [((h / 2 : Nat) : Int)])
            (msgs ++ [(((h / 2 : Nat) : Int), EyeMsg.measuring),
              (((h / 2 : Nat) : Int), EyeMsg.result 0)]) (calls + 1) := by
        rw [binSearchLoop]
        rw [if_pos (by simp [BinIter.hasNext]; omega)]
        simp [BinIter.getNext, BinIter.down]
      obtain ⟨e', m', tail', c', heq, htz, htp, hall⟩ :=
        ih (h / 2) (by omega) ((h / 2 : Nat) : Int) (marks ++ [((h / 2 : Nat) : Int)])
          (msgs ++ [(((h / 2 : Nat) : Int), EyeMsg.measuring),
            (((h / 2 : Nat) : Int), EyeMsg.result 0)]) (calls + 1)
      refine ⟨e', m',
        [(((h / 2 : Nat) : Int), EyeMsg.measuring),
          (((h / 2 : Nat) : Int), EyeMsg.result 0)] ++ tail', c', ?_, ?_, ?_, ?_⟩
      · rw [hstep, heq, List.append_assoc]
      · intro hz; omega
      · intro _
        by_cases hz : h / 2 = 0
        · obtain ⟨he, ht⟩ := htz hz
          subst ht
          constructor
          · rw [he, hz]; rfl
          · simp [hz]
        · obtain ⟨he, hmem⟩ := htp (Nat.pos_of_ne_zero hz)
          exact ⟨he, by simp [hmem]⟩
      · intro m hm
        simp only [List.mem_append, List.mem_cons, List.not_mem_nil, or_false] at hm
        rcases hm with (rfl | rfl) | h'
        · exact Or.inl rfl
        · exact Or.inr rfl
        · exact hall m h'

theorem binSearchLoop_zero_top : ∀ (fuel : Nat) (l M : Nat), M - l ≤ fuel →
    ∀ (off edge : Int) (marks : List Int) (msgs : List (Int × EyeMsg)) (calls : Nat),
    ∃ (edge' : Int) (marks' : List Int) (tail : List (Int × EyeMsg)) (calls' : Nat),
      binSearchLoop (fun _ => 0) false fuel ⟨off, l, M, (l + M) / 2⟩ edge marks msgs calls
          = (edge', marks', msgs ++ tail, calls') ∧
        (M ≤ l → edge' = edge ∧ tail = []) ∧
        (l < M → edge' = off + (M : Int) - 1 ∧ (off + (M : Int) - 1, EyeMsg.result 0) ∈ tail) ∧
        (∀ m ∈ tail, m.2 = EyeMsg.measuring ∨ m.2 = EyeMsg.result 0) := by
  intro fuel
  induction fuel with
  | zero =>
    intro l M hh off edge marks msgs calls
    have hml : M ≤ l := by omega
    exact ⟨edge, marks, [], calls, by simp [binSearchLoop], fun _ => ⟨rfl, rfl⟩,
      by omega, by simp⟩
  | succ fuel ih =>
    intro l M hh off edge marks msgs calls
    by_cases hml : M ≤ l
    · refine ⟨edge, marks, [], calls, ?_, fun _ => ⟨rfl, rfl⟩, by omega, by simp⟩
      rw [binSearchLoop, if_neg (by simp [BinIter.hasNext]; omega)]
      simp
    · have hlM : l < M := by omega
      have hcur : (⟨off, l, M, (l + M) / 2⟩ : BinIter).getNext = off + (((l + M) / 2 : Nat) : Int) :=
        rfl
      have hstep : binSearchLoop (fun _ => 0) false (fuel + 1) ⟨off, l, M, (l + M) / 2⟩ edge
          marks msgs calls
          = binSearchLoop (fun _ => 0) false fuel
            ⟨off, (l + M) / 2 + 1, M, ((l + M) / 2 + 1 + M) / 2⟩
            (off + (((l + M) / 2 : Nat) : Int))
            (marks ++ [off + (((l + M) / 2 : Nat) : Int)])
            (msgs ++ [(off + (((l + M) / 2 : Nat) : Int), EyeMsg.measuring),
              (off + (((l + M) / 2 : Nat) : Int), EyeMsg.result 0)]) (calls + 1) := by
        rw [binSearchLoop]
        rw [if_pos (by simp [BinIter.hasNext]; omega)]
        simp [BinIter.getNext, BinIter.up]
      have hl' : M - ((l + M) / 2 + 1) ≤ fuel := by omega
      obtain ⟨e', m', tail', c', heq, htz, htp, hall⟩ :=
        ih ((l + M) / 2 + 1) M hl' off (off + (((l + M) / 2 : Nat) : Int))
          (marks ++ [off + (((l + M) / 2 : Nat) : Int)])
          (msgs ++ [(off + (((l + M) / 2 : Nat) : Int), EyeMsg.measuring),
            (off + (((l + M) / 2 : Nat) : Int), EyeMsg.result 0)]) (calls + 1)
      refine ⟨e', m',
        [(off + (((l + M) / 2 : Nat) : Int), EyeMsg.measuring),
          (off + (((l + M) / 2 : Nat) : Int), EyeMsg.result 0)] ++ tail', c', ?_, ?_, ?_, ?_⟩
      · rw [hstep, heq, List.append_assoc]
      · intro hz; omega
      · intro _
        by_cases hz : M ≤ (l + M) / 2 + 1
        · obtain ⟨he, ht⟩ := htz hz
          have hoff : off + (((l + M) / 2 : Nat) : Int) = off + (M : Int) - 1 := by
            have hcast : (((l + M) / 2 : Nat) : Int) = (M : Int) - 1 := by omega
            rw [hcast]
            ring
          subst ht
          constructor
          · rw [he, hoff]
          · rw [hoff]
            simp
        · obtain ⟨he, hmem⟩ := htp (by omega)
          exact ⟨he, by simp only [List.mem_append]; exact Or.inr hmem⟩
      · intro m hm
        simp only [List.mem_append, List.mem_cons, List.not_mem_nil, or_false] at hm
        rcases hm with (rfl | rfl) | h'
        · exact Or.inl rfl
        · exact Or.inr rfl
        · exact hall m h'

theorem intRange_eq_nil {a b : Int} (h : b ≤ a) : intRange a b = [] := by
  rw [intRange]
  have hz : (b - a).toNat = 0 := by omega
  rw [hz]
  rfl

/-- C8: on a column whose error oracle returns 0 everywhere, searching
`[0, numY)` from the guess `numY // 2` discovers the array boundaries `0`
and `numY - 1` as the eye edges, every index of the column receives a
zero-error report (a real zero-error measurement or the ideal in-eye value)
and never a nonzero or max-error report, and in the best case — `numY = 3`,
where both binary searches hit their edge in one probe — exactly 2 oracle
calls are made beyond the initial guess call. -/
theorem eye_search_fully_open (numY : Nat) (hN : 1 ≤ numY) :
    ((runColumn (fun _ => 0) numY ((numY / 2 : Nat) : Int)).edges
        = some (0, (numY : Int) - 1)) ∧
      (∀ i : Int, 0 ≤ i → i < (numY : Int) →
        ∃ m ∈ (runColumn (fun _ => 0) numY ((numY / 2 : Nat) : Int)).msgs,
          m.1 = i ∧ (m.2 = EyeMsg.result 0 ∨ m.2 = EyeMsg.ideal)) ∧
      (∀ m ∈ (runColumn (fun _ => 0) numY ((numY / 2 : Nat) : Int)).msgs,
        m.2 = EyeMsg.measuring ∨ m.2 = EyeMsg.result 0 ∨ m.2 = EyeMsg.ideal) ∧
      (runColumn (fun _ => 0) 3 1).calls = 3 := by
  set g : Nat := numY / 2 with hgdef
  have hglt : g < numY := by omega
  set msgs1 : List (Int × EyeMsg) :=
    [((g : Int), EyeMsg.measuring), ((g : Int), EyeMsg.result 0)] with hmsgs1
  -- bottom-edge binary search on [0, g)
  obtain ⟨eB, mB, tailB, cB, hBeq, hB0, hBpos, hBall⟩ :=
    binSearchLoop_zero_bottom g g le_rfl (g : Int) [(g : Int)] msgs1 0
  have hbot : binSearchEyeEdge (fun _ => 0) 0 (g : Int) true [(g : Int)] msgs1
      = (eB, mB, msgs1 ++ tailB, cB) := by
    rw [binSearchEyeEdge]
    simp only [BinIter.mkBounded, Int.sub_zero, Int.toNat_natCast, if_true, Nat.sub_zero]
    exact hBeq
  have heB : eB = 0 := by
    by_cases hg : g = 0
    · obtain ⟨he, -⟩ := hB0 hg
      rw [he, hg]
      rfl
    · exact (hBpos (Nat.pos_of_ne_zero hg)).1
  -- top-edge binary search on (g, numY)
  set M : Nat := numY - g - 1 with hMdef
  obtain ⟨eT, mT, tailT, cT, hTeq, hT0, hTpos, hTall⟩ :=
    binSearchLoop_zero_top M 0 M (by omega) ((g : Int) + 1) ((g : Int) + 1 - 1) mB
      (msgs1 ++ tailB) 0
  have hMcast : ((numY : Int) - ((g : Int) + 1)).toNat = M := by omega
  have htop : binSearchEyeEdge (fun _ => 0) ((g : Int) + 1) (numY : Int) false mB
      (msgs1 ++ tailB) = (eT, mT, (msgs1 ++ tailB) ++ tailT, cT) := by
    rw [binSearchEyeEdge]
    simp only [BinIter.mkBounded, hMcast, Nat.sub_zero, if_false, Bool.false_eq_true]
    simp only [Nat.zero_add] at hTeq
    exact hTeq
  have heT : eT = (numY : Int) - 1 := by
    by_cases hM0 : M = 0
    · obtain ⟨he, -⟩ := hT0 (by omega)
      rw [he]
      omega
    · have := (hTpos (by omega)).1
      rw [this]
      omega
  -- assemble the column outcome
  have hrun : runColumn (fun _ => 0) numY ((g : Int))
      = ⟨((msgs1 ++ tailB) ++ tailT)
            ++ (intRange 1 ((numY : Int) - 1)).map (fun i => (i, EyeMsg.ideal)),
          some (0, (numY : Int) - 1), 1 + cB + cT⟩ := by
    rw [runColumn]
    simp only [hbot, heB, intRange_eq_nil le_rfl, List.filter_nil, List.map_nil,
      List.append_nil, if_pos rfl, if_true]
    simp only [htop, heT]
    have hnil : intRange ((numY : Int) - 1 + 1) (numY : Int) = [] :=
      intRange_eq_nil (by omega)
    simp only [hnil, List.filter_nil, List.map_nil, List.append_nil]
    have h01 : (0 : Int) + 1 = 1 := by norm_num
    rw [h01]
  refine ⟨by rw [hrun], ?_, ?_, by decide⟩
  · -- every index of the column gets a zero-error report
    intro i hi0 hiN
    rw [hrun]
    simp only [List.mem_append, List.mem_map]
    by_cases hig : i = (g : Int)
    · subst hig
      exact ⟨((g : Int), EyeMsg.result 0), Or.inl (Or.inl (Or.inl (by simp [hmsgs1]))),
        rfl, Or.inl rfl⟩
    · by_cases hi0' : i = 0
      · subst hi0'
        have hg0 : g ≠ 0 := fun h => hig (by rw [h]; rfl)
        obtain ⟨-, hmem⟩ := hBpos (Nat.pos_of_ne_zero hg0)
        exact ⟨((0 : Int), EyeMsg.result 0), Or.inl (Or.inl (Or.inr hmem)), rfl, Or.inl rfl⟩
      · by_cases hiT : i = (numY : Int) - 1
        · subst hiT
          have hM0 : M ≠ 0 := by omega
          obtain ⟨-, hmem⟩ := hTpos (by omega)
          have hval : (g : Int) + 1 + (M : Int) - 1 = (numY : Int) - 1 := by
            omega
          rw [hval] at hmem
          exact ⟨((numY : Int) - 1, EyeMsg.result 0), Or.inl (Or.inr hmem), rfl, Or.inl rfl⟩
        · refine ⟨(i, EyeMsg.ideal), Or.inr ⟨i, ?_, rfl⟩, rfl, Or.inr rfl⟩
          rw [mem_intRange]
          omega
  · -- no message ever carries a nonzero error count or the max-error sentinel
    intro m hm
    rw [hrun] at hm
    simp only [List.mem_append, List.mem_map] at hm
    rcases hm with ((hm | hm) | hm) | ⟨j, -, rfl⟩
    · rw [hmsgs1] at hm
      simp only [List.mem_cons, List.not_mem_nil, or_false] at hm
      rcases hm with rfl | rfl
      · exact Or.inl rfl
      · exact Or.inr (Or.inl rfl)
    · rcases hBall m hm with h' | h'
      · exact Or.inl h'
      · exact Or.inr (Or.inl h')
    · rcases hTall m hm with h' | h'
      · exact Or.inl h'
      · exact Or.inr (Or.inl h')
    · exact Or.inr (Or.inr rfl)

/-- C8 witness: a column of five offsets with the guess at 2. -/
theorem eye_search_fully_open_witness :
    1 ≤ 5 ∧
      (runColumn (fun _ => 0) 5 ((5 / 2 : Nat) : Int)).edges = some (0, (5 : Int) - 1) ∧
      (runColumn (fun _ => 0) 3 1).calls = 3 :=
  ⟨by decide, (eye_search_fully_open 5 (by decide)).1,
    (eye_search_fully_open 5 (by decide)).2.2.2⟩
